import Mathlib

/-!
Shallow embedding of the shrLink compression core
(`src/compression/mod.rs`, `src/error.rs`).

Bytes are natural numbers (`u8` values are below 256); machine integers are
naturals with an explicit `% 2 ^ 32` wherever the Rust code casts to `u32`.
File contents are byte lists, so the IO-free data path of each function is
embedded directly.  The two external crates on the data path are modelled by
their contracts: the 256-bit hash (`blake3`) as a concrete deterministic
function producing 32 bytes, and the LZ4 block codec (`lz4_flex`) as a
parameter with its round-trip contract.
-/

namespace ShrLink

/-- Little-endian encoding of a `u32` value, as `(x as u32).to_le_bytes()`
produces it: four bytes holding `x` modulo `2 ^ 32`. -/
def u32le (n : Nat) : List Nat :=
  [n % 256, n / 256 % 256, n / 65536 % 256, n / 16777216 % 256]

/-- Value of a little-endian byte sequence, as `u32::from_le_bytes` computes
it; each byte contributes its low 8 bits. -/
def leVal : List Nat → Nat
  | [] => 0
  | b :: bs => b % 256 + 256 * leVal bs

/-- Read a `u32` stored little-endian at byte offset `off` of `b`, as
`u32::from_le_bytes([b[off], b[off+1], b[off+2], b[off+3]])` does inside
`parse_shr_bundle` (all its reads are guarded to be in bounds). -/
def readU32 (b : List Nat) (off : Nat) : Nat :=
  leVal ((b.drop off).take 4)

/-- The `k` little-endian base-256 digits of `n`. -/
def natToLEBytes : Nat → Nat → List Nat
  | 0, _ => []
  | k + 1, n => n % 256 :: natToLEBytes k (n / 256)

/-- Model of the external 256-bit hash (`blake3::Hasher`): a deterministic
function of the input producing exactly 32 bytes.  The development relies
only on determinism and the output length, which is all the source relies on
from the real hash. -/
def hashBytes (data : List Nat) : List Nat :=
  natToLEBytes 32 (data.foldl (fun acc b => (acc * 131 + b + 17) % 2 ^ 256) (data.length + 1))

/-- One lowercase hex digit, as `hex::encode` uses. -/
def hexDigit (n : Nat) : Char :=
  "0123456789abcdef".toList.getD n 'x'

/-- Model of `hex::encode` of a byte slice: two lowercase hex digits per
byte. -/
def hexEncode (bs : List Nat) : String :=
  String.mk (bs.flatMap fun b => [hexDigit (b / 16), hexDigit (b % 16)])

/-- `ShrLinkError` (src/error.rs:5-36).  Foreign payloads (`std::io::Error`,
`toml::de::Error`, `anyhow::Error`) are modelled by their display strings.
Note: the enum has no bundle-specific variant; `parse_shr_bundle` reports
malformed bundles through `InvalidInput`. -/
inductive ShrLinkError where
  | Io : String → ShrLinkError
  | Compression : String → ShrLinkError
  | Network : String → ShrLinkError
  | P2P : String → ShrLinkError
  | Http : String → ShrLinkError
  | Config : String → ShrLinkError
  | HashMismatch : String → String → ShrLinkError
  | Timeout : String → ShrLinkError
  | InvalidInput : String → ShrLinkError
  | Other : String → ShrLinkError
deriving DecidableEq, Repr

instance exceptDecEq {ε α : Type} [DecidableEq ε] [DecidableEq α] : DecidableEq (Except ε α) :=
  fun x y =>
    match x, y with
    | .ok a, .ok b =>
      if h : a = b then isTrue (by rw [h]) else isFalse (fun hc => h (Except.ok.inj hc))
    | .error a, .error b =>
      if h : a = b then isTrue (by rw [h]) else isFalse (fun hc => h (Except.error.inj hc))
    | .ok _, .error _ => isFalse (fun hc => Except.noConfusion hc)
    | .error _, .ok _ => isFalse (fun hc => Except.noConfusion hc)

/-- Model of the external LZ4 block codec (`lz4_flex`): an arbitrary
compression function together with a decompression partial inverse,
constrained only by the library's round-trip contract
`decompress(compress(d)) = Ok(d)`.  The development is parametric in the
codec. -/
structure Lz4 where
  comp : List Nat → List Nat
  decomp : List Nat → Option (List Nat)
  decomp_comp : ∀ d, decomp (comp d) = some d

/-- A trivial instance of the codec contract, used to evaluate the
development on concrete inputs. -/
def lz4Id : Lz4 :=
  { comp := fun d => d, decomp := fun bs => some bs, decomp_comp := fun _ => rfl }

/-- `lz4_flex::compress_prepend_size`: the plaintext length as a
little-endian `u32`, followed by the compressed bytes. -/
def compress_prepend_size (L : Lz4) (d : List Nat) : List Nat :=
  u32le d.length ++ L.comp d

/-- `lz4_flex::decompress_size_prepended`: read the 4-byte length prefix,
decompress the rest, and fail unless the decompressed length matches the
prefix. -/
def decompress_size_prepended (L : Lz4) (bs : List Nat) : Option (List Nat) :=
  if bs.length < 4 then none
  else
    match L.decomp (bs.drop 4) with
    | none => none
    | some d => if d.length % 2 ^ 32 = leVal (bs.take 4) then some d else none

/-- `CompressedChunk` (src/compression/mod.rs:13-19).  `hash : [u8; 32]` is
a byte list; every chunk the code constructs gives it length 32. -/
structure CompressedChunk where
  index : Nat
  data : List Nat
  hash : List Nat
  original_size : Nat
deriving DecidableEq, Repr

/-- `CompressionResult` (src/compression/mod.rs:21-26). -/
structure CompressionResult where
  chunks : List CompressedChunk
  total_original_size : Nat
  total_compressed_size : Nat
deriving DecidableEq, Repr

/-- `ParallelCompressor` (src/compression/mod.rs:28-32). -/
structure ParallelCompressor where
  block_size : Nat
  acceleration : Int
  num_workers : Nat
deriving DecidableEq, Repr

/-- `ParallelCompressor::with_workers` (src/compression/mod.rs:53-56):
clamps the requested count to at least 1. -/
def with_workers (self : ParallelCompressor) (n : Nat) : ParallelCompressor :=
  { self with num_workers := n.max 1 }

/-- The read loop of `read_file_chunks`, fuel-indexed so that it is
structurally recursive; `fuel` bounds the number of iterations and
`read_file_chunks` supplies enough.  A file read returns
`min block_size remaining` bytes; a zero-byte read ends the loop without
emitting a block, and a short read emits the final block and stops. -/
def readChunksFuel (B : Nat) : Nat → List Nat → List (List Nat)
  | 0, _ => []
  | fuel + 1, s =>
    if B = 0 ∨ s.length = 0 then []
    else if s.length < B then [s]
    else s.take B :: readChunksFuel B fuel (s.drop B)

/-- `ParallelCompressor::read_file_chunks` (src/compression/mod.rs:92-110),
with the file contents given as the byte list `s`. -/
def read_file_chunks (self : ParallelCompressor) (s : List Nat) : List (List Nat) :=
  readChunksFuel self.block_size s.length s

/-- `ParallelCompressor::compress_chunk` (src/compression/mod.rs:149-166). -/
def compress_chunk (L : Lz4) (_self : ParallelCompressor) (index : Nat) (chunk : List Nat) :
    Except ShrLinkError CompressedChunk :=
  .ok { index := index, data := compress_prepend_size L chunk,
        hash := hashBytes chunk, original_size := chunk.length }

/-- Index-value pairs starting at `i`, as the Rust iterator `.enumerate()`
yields them (starting index 0). -/
def enumFrom {α : Type} (i : Nat) : List α → List (Nat × α)
  | [] => []
  | c :: cs => (i, c) :: enumFrom (i + 1) cs

/-- `collect::<Result<Vec<_>, _>>()`: the first error wins, otherwise the
successes in order. -/
def collectResults {α : Type} : List (Except ShrLinkError α) → Except ShrLinkError (List α)
  | [] => .ok []
  | .error e :: _ => .error e
  | .ok a :: rest =>
    match collectResults rest with
    | .error e => .error e
    | .ok tail => .ok (a :: tail)

/-- `ParallelCompressor::compress_chunks_parallel` (src/compression/mod.rs:
132-147).  Rayon's indexed parallel iterator collects results in input
order regardless of completion order, so the parallel map is modelled as an
in-order map; thread-pool construction with the clamped worker count is
modelled as succeeding (rayon only fails for OS-level reasons outside the
model). -/
def compress_chunks_parallel (L : Lz4) (self : ParallelCompressor) (chunks : List (List Nat)) :
    Except ShrLinkError (List CompressedChunk) :=
  collectResults ((enumFrom 0 chunks).map fun p => compress_chunk L self p.1 p.2)

/-- `ParallelCompressor::compress_file` (src/compression/mod.rs:58-74), with
the file contents given as the byte list `s`, so the size reported by the
file's metadata is `s.length`. -/
def compress_file (L : Lz4) (self : ParallelCompressor) (s : List Nat) :
    Except ShrLinkError CompressionResult :=
  match compress_chunks_parallel L self (read_file_chunks self s) with
  | .error e => .error e
  | .ok cs =>
    .ok { chunks := cs, total_original_size := s.length,
          total_compressed_size := (cs.map fun c => c.data.length).sum }

/-- `ParallelCompressor::decompress_chunk` (src/compression/mod.rs:168-187). -/
def decompress_chunk (L : Lz4) (_self : ParallelCompressor) (chunk : CompressedChunk) :
    Except ShrLinkError (List Nat) :=
  match decompress_size_prepended L chunk.data with
  | none => .error (ShrLinkError.Compression "lz4 decompression failed")
  | some d =>
    if hashBytes d ≠ chunk.hash then
      .error (ShrLinkError.HashMismatch (hexEncode chunk.hash) (hexEncode (hashBytes d)))
    else .ok d

/-- The bundle header magic `b"SHR\x01"`. -/
def shrMagic : List Nat := [83, 72, 82, 1]

/-- One 44-byte metadata record written by `create_shr_bundle`:
`u32 index ++ u32 original_size ++ u32 compressed_size ++ hash`. -/
def metaRecord (c : CompressedChunk) : List Nat :=
  u32le c.index ++ u32le c.original_size ++ u32le c.data.length ++ c.hash

/-- `create_shr_bundle` (src/compression/mod.rs:190-211).  The Rust function
returns `Result` but never fails, so the buffer is returned directly. -/
def create_shr_bundle (chunks : List CompressedChunk) : List Nat :=
  shrMagic ++ u32le chunks.length
    ++ chunks.flatMap metaRecord
    ++ chunks.flatMap (fun c => c.data)

/-- The metadata loop of `parse_shr_bundle`: `count` records read at
consecutive 44-byte offsets starting at `off`, each record being
`(index, original_size, compressed_size, hash)`. -/
def parseMetas (bundle : List Nat) : Nat → Nat → List (Nat × Nat × Nat × List Nat)
  | 0, _ => []
  | count + 1, off =>
    (readU32 bundle off, readU32 bundle (off + 4), readU32 bundle (off + 8),
      (bundle.drop (off + 12)).take 32) :: parseMetas bundle count (off + 44)

/-- The payload loop of `parse_shr_bundle`: walk the metadata records with a
running offset, rejecting the first record whose payload would run past the
end of the buffer. -/
def parsePayloads (bundle : List Nat) :
    List (Nat × Nat × Nat × List Nat) → Nat → Except ShrLinkError (List CompressedChunk)
  | [], _ => .ok []
  | (index, original_size, compressed_size, hash) :: rest, off =>
    if off + compressed_size > bundle.length then
      .error (ShrLinkError.InvalidInput "Bundle too short for chunk data")
    else
      match parsePayloads bundle rest (off + compressed_size) with
      | .error e => .error e
      | .ok tail =>
        .ok ({ index := index, data := (bundle.drop off).take compressed_size,
               hash := hash, original_size := original_size } :: tail)

/-- Stable insertion of a chunk into a list already sorted by `index`. -/
def insertByIndex (c : CompressedChunk) : List CompressedChunk → List CompressedChunk
  | [] => [c]
  | d :: ds => if c.index ≤ d.index then c :: d :: ds else d :: insertByIndex c ds

/-- Stable sort by `index`, modelling `chunks.sort_by_key(|c| c.index)`;
Rust's `sort_by_key` is stable, and a stable sort by a key is unique, so any
stable implementation computes the same list. -/
def sortByIndex : List CompressedChunk → List CompressedChunk
  | [] => []
  | c :: cs => insertByIndex c (sortByIndex cs)

/-- `parse_shr_bundle` (src/compression/mod.rs:213-263). -/
def parse_shr_bundle (bundle : List Nat) : Except ShrLinkError (List CompressedChunk) :=
  if bundle.length < 8 ∨ bundle.take 4 ≠ shrMagic then
    .error (ShrLinkError.InvalidInput "Invalid SHR bundle format")
  else
    let chunk_count := readU32 bundle 4
    let metadata_size := chunk_count * 44
    if bundle.length < 8 + metadata_size then
      .error (ShrLinkError.InvalidInput "Bundle too short for metadata")
    else
      match parsePayloads bundle (parseMetas bundle chunk_count 8) (8 + metadata_size) with
      | .error e => .error e
      | .ok chunks => .ok (sortByIndex chunks)

/-- A chunk list all of whose fields fit the wire format's `u32` and
32-byte hash slots. -/
def wireFits (chunks : List CompressedChunk) : Prop :=
  chunks.length < 2 ^ 32 ∧
    ∀ c ∈ chunks, c.index < 2 ^ 32 ∧ c.original_size < 2 ^ 32 ∧
      c.data.length < 2 ^ 32 ∧ c.hash.length = 32

instance wireFitsDecidable (chunks : List CompressedChunk) : Decidable (wireFits chunks) := by
  unfold wireFits
  infer_instance

/-- Flip bit `p` (zero-based, little-endian within each byte) of a byte
list. -/
def flipBit (bs : List Nat) (p : Nat) : List Nat :=
  bs.set (p / 8) (bs.getD (p / 8) 0 ^^^ 2 ^ (p % 8))

/-- The chunk `compress_chunk` builds from the indexed block `p`. -/
def mkChunk (L : Lz4) (p : Nat × List Nat) : CompressedChunk :=
  { index := p.1, data := compress_prepend_size L p.2,
    hash := hashBytes p.2, original_size := p.2.length }

theorem u32le_length (n : Nat) : (u32le n).length = 4 := rfl

theorem leVal_u32le (n : Nat) : leVal (u32le n) = n % 2 ^ 32 := by
  simp only [u32le, leVal]
  omega

theorem natToLEBytes_length : ∀ k n, (natToLEBytes k n).length = k := by
  intro k
  induction k with
  | zero => intro n; rfl
  | succ m ih => intro n; simp [natToLEBytes, ih]

theorem hashBytes_length (d : List Nat) : (hashBytes d).length = 32 := by
  unfold hashBytes
  exact natToLEBytes_length 32 _

theorem readU32_append {pre : List Nat} (rest : List Nat) {off : Nat} (h : pre.length = off) :
    readU32 (pre ++ rest) off = leVal (rest.take 4) := by
  unfold readU32
  rw [List.drop_left' h]

theorem decompress_compress (L : Lz4) (d : List Nat) :
    decompress_size_prepended L (compress_prepend_size L d) = some d := by
  unfold decompress_size_prepended compress_prepend_size
  rw [if_neg (by simp [u32le]), List.drop_left' (u32le_length d.length),
    List.take_left' (u32le_length d.length), L.decomp_comp d, leVal_u32le]
  simp

theorem enumFrom_map_fst {α : Type} (l : List α) :
    ∀ i, (enumFrom i l).map Prod.fst = List.range' i l.length := by
  induction l with
  | nil => intro i; rfl
  | cons a as ih =>
    intro i
    simp [enumFrom, List.range'_succ, ih (i + 1)]

theorem enumFrom_mem_snd {α : Type} (l : List α) :
    ∀ i p, p ∈ enumFrom i l → p.2 ∈ l := by
  induction l with
  | nil => intro i p hp; cases hp
  | cons a as ih =>
    intro i p hp
    rcases List.mem_cons.mp hp with h | h
    · rw [h]; exact List.mem_cons_self a as
    · exact List.mem_cons_of_mem a (ih (i + 1) p h)

theorem collectResults_map_ok {α β : Type} (f : α → Except ShrLinkError β) (g : α → β)
    (l : List α) (h : ∀ x ∈ l, f x = .ok (g x)) :
    collectResults (l.map f) = .ok (l.map g) := by
  induction l with
  | nil => rfl
  | cons a as ih =>
    have ha := h a (List.mem_cons_self a as)
    have ih' := ih fun x hx => h x (List.mem_cons_of_mem a hx)
    simp [collectResults, ha, ih']

theorem compress_chunks_parallel_eq (L : Lz4) (self : ParallelCompressor)
    (chunks : List (List Nat)) :
    compress_chunks_parallel L self chunks = .ok ((enumFrom 0 chunks).map (mkChunk L)) := by
  unfold compress_chunks_parallel
  exact collectResults_map_ok _ _ _ fun x _ => rfl

theorem compress_file_eq (L : Lz4) (self : ParallelCompressor) (s : List Nat) :
    compress_file L self s =
      .ok { chunks := (enumFrom 0 (read_file_chunks self s)).map (mkChunk L),
            total_original_size := s.length,
            total_compressed_size :=
              (((enumFrom 0 (read_file_chunks self s)).map (mkChunk L)).map
                fun c => c.data.length).sum } := by
  unfold compress_file
  rw [compress_chunks_parallel_eq]

theorem decompress_chunk_mk (L : Lz4) (self : ParallelCompressor) (p : Nat × List Nat) :
    decompress_chunk L self (mkChunk L p) = .ok p.2 := by
  unfold decompress_chunk mkChunk
  simp only
  rw [decompress_compress]
  simp

theorem readChunksFuel_flatten {B : Nat} (hB : 0 < B) :
    ∀ fuel s, s.length ≤ fuel → (readChunksFuel B fuel s).flatten = s := by
  intro fuel
  induction fuel with
  | zero =>
    intro s hs
    rw [List.eq_nil_of_length_eq_zero (Nat.le_zero.mp hs)]
    rfl
  | succ n ih =>
    intro s hs
    by_cases h0 : s.length = 0
    · rw [List.eq_nil_of_length_eq_zero h0]
      simp [readChunksFuel]
    · by_cases hlt : s.length < B
      · simp [readChunksFuel, h0, hlt, Nat.pos_iff_ne_zero.mp hB]
      · have hdrop : (s.drop B).length ≤ n := by
          simp only [List.length_drop]
          omega
        simp only [readChunksFuel, Nat.pos_iff_ne_zero.mp hB, h0, or_self, if_false, hlt,
          List.flatten]
        rw [ih (s.drop B) hdrop, List.take_append_drop]

theorem readChunksFuel_length {B : Nat} (hB : 0 < B) :
    ∀ fuel s, s.length ≤ fuel →
      (readChunksFuel B fuel s).length = (s.length + B - 1) / B := by
  intro fuel
  induction fuel with
  | zero =>
    intro s hs
    have h0 := Nat.le_zero.mp hs
    rw [List.eq_nil_of_length_eq_zero h0]
    simp [readChunksFuel, Nat.div_eq_of_lt (by omega : B - 1 < B)]
  | succ n ih =>
    intro s hs
    by_cases h0 : s.length = 0
    · rw [List.eq_nil_of_length_eq_zero h0]
      simp [readChunksFuel, Nat.div_eq_of_lt (by omega : B - 1 < B)]
    · by_cases hlt : s.length < B
      · simp only [readChunksFuel, Nat.pos_iff_ne_zero.mp hB, h0, or_self, if_false, hlt,
          if_true, List.length_singleton]
        exact (Nat.div_eq_of_lt_le (by omega) (by omega)).symm
      · have hdrop : (s.drop B).length ≤ n := by
          simp only [List.length_drop]
          omega
        simp only [readChunksFuel, Nat.pos_iff_ne_zero.mp hB, h0, or_self, if_false, hlt,
          List.length_cons]
        rw [ih (s.drop B) hdrop]
        simp only [List.length_drop]
        have h1 : s.length - B + B - 1 = s.length - 1 := by omega
        have h2 : s.length + B - 1 = s.length - 1 + B := by omega
        rw [h1, h2, Nat.add_div_right _ hB]

theorem readChunksFuel_ne_nil (B : Nat) :
    ∀ fuel s, [] ∉ readChunksFuel B fuel s := by
  intro fuel
  induction fuel with
  | zero => intro s h; cases h
  | succ n ih =>
    intro s h
    rw [readChunksFuel] at h
    by_cases hg : B = 0 ∨ s.length = 0
    · rw [if_pos hg] at h
      cases h
    · rw [if_neg hg] at h
      push_neg at hg
      by_cases hlt : s.length < B
      · rw [if_pos hlt] at h
        have hss : ([] : List Nat) = s := List.mem_singleton.mp h
        exact hg.2 (by rw [← hss]; rfl)
      · rw [if_neg hlt] at h
        rcases List.mem_cons.mp h with h1 | h1
        · have hlen : (s.take B).length = B := by
            rw [List.length_take]
            omega
          rw [← h1] at hlen
          exact hg.1 hlen.symm
        · exact ih (s.drop B) h1

theorem slice_at {pre mid rest : List Nat} {off k : Nat} (hpre : pre.length = off)
    (hmid : mid.length = k) : ((pre ++ (mid ++ rest)).drop off).take k = mid := by
  rw [List.drop_left' hpre, List.take_left' hmid]

theorem readU32_at {pre mid rest : List Nat} {off : Nat} (hpre : pre.length = off)
    (hmid : mid.length = 4) : readU32 (pre ++ (mid ++ rest)) off = leVal mid := by
  unfold readU32
  exact congrArg leVal (slice_at hpre hmid)

theorem slice_take {b : List Nat} {t off k : Nat} (h : off + k ≤ t) :
    ((b.take t).drop off).take k = (b.drop off).take k := by
  rw [List.drop_take, List.take_take]
  congr 1
  omega

theorem readU32_take {b : List Nat} {t off : Nat} (h : off + 4 ≤ t) :
    readU32 (b.take t) off = readU32 b off := by
  unfold readU32
  exact congrArg leVal (slice_take h)

theorem metaRecord_length {c : CompressedChunk} (h : c.hash.length = 32) :
    (metaRecord c).length = 44 := by
  simp [metaRecord, u32le, h]

theorem flatMap_metaRecord_length {chunks : List CompressedChunk}
    (h : ∀ c ∈ chunks, c.hash.length = 32) :
    (chunks.flatMap metaRecord).length = 44 * chunks.length := by
  induction chunks with
  | nil => rfl
  | cons c cs ih =>
    have hc := h c (List.mem_cons_self c cs)
    have ih' := ih fun x hx => h x (List.mem_cons_of_mem c hx)
    simp [List.flatMap_cons, metaRecord_length hc, ih']
    ring

/-- The metadata tuple `(index, original_size, compressed_size, hash)` that the
wire format stores for a chunk, with the `u32` casts applied. -/
def metaOf (c : CompressedChunk) : Nat × Nat × Nat × List Nat :=
  (c.index % 2 ^ 32, c.original_size % 2 ^ 32, c.data.length % 2 ^ 32, c.hash)

theorem parseMetas_length (bundle : List Nat) :
    ∀ count off, (parseMetas bundle count off).length = count := by
  intro count
  induction count with
  | zero => intro off; rfl
  | succ n ih => intro off; simp [parseMetas, ih]

theorem parseMetas_create (suf : List Nat) :
    ∀ (cs : List CompressedChunk) (pre : List Nat), (∀ c ∈ cs, c.hash.length = 32) →
      parseMetas (pre ++ cs.flatMap metaRecord ++ suf) cs.length pre.length
        = cs.map metaOf := by
  intro cs
  induction cs with
  | nil => intro pre _; rfl
  | cons c cs ih =>
    intro pre h
    have hc : c.hash.length = 32 := h c (List.mem_cons_self c cs)
    have hrest : ∀ x ∈ cs, x.hash.length = 32 := fun x hx => h x (List.mem_cons_of_mem c hx)
    have hb1 : pre ++ (c :: cs).flatMap metaRecord ++ suf
        = pre ++ (u32le c.index ++ (u32le c.original_size ++ (u32le c.data.length
            ++ (c.hash ++ (cs.flatMap metaRecord ++ suf))))) := by
      simp [metaRecord, List.append_assoc]
    have hb2 : pre ++ (c :: cs).flatMap metaRecord ++ suf
        = (pre ++ u32le c.index) ++ (u32le c.original_size ++ (u32le c.data.length
            ++ (c.hash ++ (cs.flatMap metaRecord ++ suf)))) := by
      simp [metaRecord, List.append_assoc]
    have hb3 : pre ++ (c :: cs).flatMap metaRecord ++ suf
        = (pre ++ u32le c.index ++ u32le c.original_size) ++ (u32le c.data.length
            ++ (c.hash ++ (cs.flatMap metaRecord ++ suf))) := by
      simp [metaRecord, List.append_assoc]
    have hb4 : pre ++ (c :: cs).flatMap metaRecord ++ suf
        = (pre ++ u32le c.index ++ u32le c.original_size ++ u32le c.data.length)
            ++ (c.hash ++ (cs.flatMap metaRecord ++ suf)) := by
      simp [metaRecord, List.append_assoc]
    have hb5 : pre ++ (c :: cs).flatMap metaRecord ++ suf
        = (pre ++ metaRecord c) ++ cs.flatMap metaRecord ++ suf := by
      simp [List.append_assoc]
    have hl2 : (pre ++ u32le c.index).length = pre.length + 4 := by
      simp [u32le]
    have hl3 : (pre ++ u32le c.index ++ u32le c.original_size).length = pre.length + 8 := by
      simp [u32le]
    have hl4 : (pre ++ u32le c.index ++ u32le c.original_size
        ++ u32le c.data.length).length = pre.length + 12 := by
      simp [u32le]
    have hl5 : (pre ++ metaRecord c).length = pre.length + 44 := by
      simp [List.length_append, metaRecord_length hc]
    have h1 : readU32 (pre ++ (c :: cs).flatMap metaRecord ++ suf) pre.length
        = c.index % 2 ^ 32 := by
      rw [hb1, readU32_at rfl (u32le_length _), leVal_u32le]
    have h2 : readU32 (pre ++ (c :: cs).flatMap metaRecord ++ suf) (pre.length + 4)
        = c.original_size % 2 ^ 32 := by
      rw [hb2, readU32_at hl2 (u32le_length _), leVal_u32le]
    have h3 : readU32 (pre ++ (c :: cs).flatMap metaRecord ++ suf) (pre.length + 8)
        = c.data.length % 2 ^ 32 := by
      rw [hb3, readU32_at hl3 (u32le_length _), leVal_u32le]
    have h4 : (((pre ++ (c :: cs).flatMap metaRecord ++ suf).drop (pre.length + 12)).take 32)
        = c.hash := by
      rw [hb4]
      exact slice_at hl4 hc
    have htail : parseMetas (pre ++ (c :: cs).flatMap metaRecord ++ suf) cs.length
        (pre.length + 44) = cs.map metaOf := by
      rw [hb5, ← hl5]
      exact ih (pre ++ metaRecord c) hrest
    simp only [List.length_cons, parseMetas, List.map_cons]
    rw [h1, h2, h3, h4, htail]
    rfl

theorem parsePayloads_create :
    ∀ (cs : List CompressedChunk) (pre bundle : List Nat),
      bundle = pre ++ cs.flatMap (fun c => c.data) →
      (∀ c ∈ cs, c.data.length < 2 ^ 32) →
      parsePayloads bundle (cs.map metaOf) pre.length
        = .ok (cs.map fun c =>
            { index := c.index % 2 ^ 32, data := c.data, hash := c.hash,
              original_size := c.original_size % 2 ^ 32 }) := by
  intro cs
  induction cs with
  | nil => intro pre bundle _ _; rfl
  | cons c cs ih =>
    intro pre bundle hb h
    have hc : c.data.length < 2 ^ 32 := h c (List.mem_cons_self c cs)
    have hrest : ∀ x ∈ cs, x.data.length < 2 ^ 32 := fun x hx => h x (List.mem_cons_of_mem c hx)
    have hmod : c.data.length % 2 ^ 32 = c.data.length := Nat.mod_eq_of_lt hc
    have hb1 : bundle = pre ++ (c.data ++ cs.flatMap fun x => x.data) := by
      rw [hb]
      simp [List.append_assoc]
    have hb2 : bundle = (pre ++ c.data) ++ cs.flatMap fun x => x.data := by
      rw [hb1, List.append_assoc]
    have hplen : (pre ++ c.data).length = pre.length + c.data.length := by
      simp
    have hblen : bundle.length
        = pre.length + c.data.length + (cs.flatMap fun x => x.data).length := by
      rw [hb1]
      simp
      omega
    simp only [List.map_cons, metaOf, parsePayloads]
    rw [hmod]
    rw [if_neg (by omega)]
    have hrec : parsePayloads bundle (cs.map metaOf) (pre.length + c.data.length)
        = .ok (cs.map fun x =>
            { index := x.index % 2 ^ 32, data := x.data, hash := x.hash,
              original_size := x.original_size % 2 ^ 32 }) := by
      rw [← hplen]
      exact ih (pre ++ c.data) bundle hb2 hrest
    rw [hrec]
    have hsl : (bundle.drop pre.length).take c.data.length = c.data := by
      rw [hb1]
      exact slice_at rfl rfl
    rw [hsl]

theorem map_metaOf_id {chunks : List CompressedChunk}
    (h : ∀ c ∈ chunks, c.index < 2 ^ 32 ∧ c.original_size < 2 ^ 32 ∧
      c.data.length < 2 ^ 32 ∧ c.hash.length = 32) :
    (chunks.map fun c =>
      ({ index := c.index % 2 ^ 32, data := c.data, hash := c.hash,
         original_size := c.original_size % 2 ^ 32 } : CompressedChunk)) = chunks := by
  induction chunks with
  | nil => rfl
  | cons c cs ih =>
    have hc := h c (List.mem_cons_self c cs)
    have ih' := ih fun x hx => h x (List.mem_cons_of_mem c hx)
    simp only [List.map_cons, ih']
    congr 1
    cases c with
    | mk i d hsh o =>
      simp only at hc
      simp [Nat.mod_eq_of_lt hc.1, Nat.mod_eq_of_lt hc.2.1]
      exact ⟨hc.1, hc.2.1⟩

theorem create_shr_bundle_length {chunks : List CompressedChunk}
    (h : ∀ c ∈ chunks, c.hash.length = 32) :
    (create_shr_bundle chunks).length
      = 8 + 44 * chunks.length + (chunks.flatMap fun c => c.data).length := by
  simp [create_shr_bundle, shrMagic, u32le, flatMap_metaRecord_length h]
  omega

theorem create_shr_bundle_assoc (chunks : List CompressedChunk) :
    create_shr_bundle chunks
      = shrMagic ++ (u32le chunks.length
          ++ (chunks.flatMap metaRecord ++ chunks.flatMap fun c => c.data)) := by
  simp [create_shr_bundle, List.append_assoc]

theorem create_shr_bundle_take4 (chunks : List CompressedChunk) :
    (create_shr_bundle chunks).take 4 = shrMagic := by
  rw [create_shr_bundle_assoc]
  exact List.take_left' (show shrMagic.length = 4 from rfl)

theorem readU32_create_4 {chunks : List CompressedChunk} (hn : chunks.length < 2 ^ 32) :
    readU32 (create_shr_bundle chunks) 4 = chunks.length := by
  rw [create_shr_bundle_assoc,
    readU32_at (show shrMagic.length = 4 from rfl) (u32le_length _), leVal_u32le,
    Nat.mod_eq_of_lt hn]

theorem parseMetas_create_bundle {chunks : List CompressedChunk}
    (hhash : ∀ c ∈ chunks, c.hash.length = 32) :
    parseMetas (create_shr_bundle chunks) chunks.length 8 = chunks.map metaOf := by
  have hpre8 : (shrMagic ++ u32le chunks.length).length = 8 := by
    simp [shrMagic, u32le]
  have hb2 : create_shr_bundle chunks
      = (shrMagic ++ u32le chunks.length) ++ chunks.flatMap metaRecord
          ++ chunks.flatMap (fun c => c.data) := by
    simp [create_shr_bundle, List.append_assoc]
  rw [hb2, ← hpre8]
  exact parseMetas_create _ chunks _ hhash

theorem parsePayloads_create_bundle {chunks : List CompressedChunk}
    (hhash : ∀ c ∈ chunks, c.hash.length = 32)
    (hdlen : ∀ c ∈ chunks, c.data.length < 2 ^ 32) :
    parsePayloads (create_shr_bundle chunks) (chunks.map metaOf)
        (8 + chunks.length * 44)
      = .ok (chunks.map fun c =>
          { index := c.index % 2 ^ 32, data := c.data, hash := c.hash,
            original_size := c.original_size % 2 ^ 32 }) := by
  have hpreM : (shrMagic ++ u32le chunks.length ++ chunks.flatMap metaRecord).length
      = 8 + chunks.length * 44 := by
    simp [shrMagic, u32le, flatMap_metaRecord_length hhash]
    omega
  have hb3 : create_shr_bundle chunks
      = (shrMagic ++ u32le chunks.length ++ chunks.flatMap metaRecord)
          ++ chunks.flatMap (fun c => c.data) := by
    simp [create_shr_bundle, List.append_assoc]
  rw [← hpreM]
  exact parsePayloads_create chunks _ _ hb3 hdlen

theorem parse_create_shr_bundle {chunks : List CompressedChunk} (h : wireFits chunks) :
    parse_shr_bundle (create_shr_bundle chunks) = .ok (sortByIndex chunks) := by
  obtain ⟨hn, hall⟩ := h
  have hhash : ∀ c ∈ chunks, c.hash.length = 32 := fun c hc => (hall c hc).2.2.2
  have hdlen : ∀ c ∈ chunks, c.data.length < 2 ^ 32 := fun c hc => (hall c hc).2.2.1
  have hblen := create_shr_bundle_length hhash
  have hcount := readU32_create_4 hn
  have hg1 : ¬((create_shr_bundle chunks).length < 8
      ∨ (create_shr_bundle chunks).take 4 ≠ shrMagic) := by
    push_neg
    exact ⟨by rw [hblen]; omega, create_shr_bundle_take4 chunks⟩
  have hg2 : ¬((create_shr_bundle chunks).length
      < 8 + readU32 (create_shr_bundle chunks) 4 * 44) := by
    rw [hcount, hblen]
    omega
  have hpayload : parsePayloads (create_shr_bundle chunks) (chunks.map metaOf)
      (8 + chunks.length * 44) = .ok chunks := by
    rw [parsePayloads_create_bundle hhash hdlen, map_metaOf_id hall]
  simp only [parse_shr_bundle]
  rw [if_neg hg1, if_neg hg2, hcount, parseMetas_create_bundle hhash, hpayload]

theorem insertByIndex_mem {c x : CompressedChunk} :
    ∀ l, x ∈ insertByIndex c l → x = c ∨ x ∈ l := by
  intro l
  induction l with
  | nil =>
    intro h
    exact Or.inl (List.mem_singleton.mp h)
  | cons d ds ih =>
    intro h
    by_cases hc : c.index ≤ d.index
    · rw [insertByIndex, if_pos hc] at h
      rcases List.mem_cons.mp h with h1 | h1
      · exact Or.inl h1
      · exact Or.inr h1
    · rw [insertByIndex, if_neg hc] at h
      rcases List.mem_cons.mp h with h1 | h1
      · exact Or.inr (by rw [h1]; exact List.mem_cons_self d ds)
      · rcases ih h1 with h2 | h2
        · exact Or.inl h2
        · exact Or.inr (List.mem_cons_of_mem d h2)

theorem insertByIndex_pairwise {c : CompressedChunk} :
    ∀ l, List.Pairwise (fun a b => a.index ≤ b.index) l →
      List.Pairwise (fun a b => a.index ≤ b.index) (insertByIndex c l) := by
  intro l
  induction l with
  | nil => intro _; simp [insertByIndex]
  | cons d ds ih =>
    intro h
    rcases List.pairwise_cons.mp h with ⟨hd, hds⟩
    by_cases hc : c.index ≤ d.index
    · rw [insertByIndex, if_pos hc]
      refine List.pairwise_cons.mpr ⟨?_, h⟩
      intro x hx
      rcases List.mem_cons.mp hx with h1 | h1
      · rw [h1]; exact hc
      · exact le_trans hc (hd x h1)
    · rw [insertByIndex, if_neg hc]
      refine List.pairwise_cons.mpr ⟨?_, ih hds⟩
      intro x hx
      rcases insertByIndex_mem _ hx with h1 | h1
      · rw [h1]; omega
      · exact hd x h1

theorem sortByIndex_pairwise :
    ∀ l, List.Pairwise (fun a b => a.index ≤ b.index) (sortByIndex l) := by
  intro l
  induction l with
  | nil => exact List.Pairwise.nil
  | cons c cs ih => exact insertByIndex_pairwise _ ih

theorem parse_shr_bundle_sorted {bundle : List Nat} {cs : List CompressedChunk}
    (h : parse_shr_bundle bundle = .ok cs) :
    List.Pairwise (fun a b => a.index ≤ b.index) cs := by
  simp only [parse_shr_bundle] at h
  split at h
  · simp at h
  · split at h
    · simp at h
    · split at h
      · simp at h
      · rename_i parsed heq
        injection h with h2
        subst h2
        exact sortByIndex_pairwise parsed

theorem parsePayloads_short (bundle : List Nat) :
    ∀ (metas : List (Nat × Nat × Nat × List Nat)) (off : Nat),
      bundle.length < off + (metas.map fun m => m.2.2.1).sum →
      parsePayloads bundle metas off
          = .error (ShrLinkError.InvalidInput "Bundle too short for chunk data")
        ∨ metas = [] := by
  intro metas
  induction metas with
  | nil => intro off _; exact Or.inr rfl
  | cons m rest ih =>
    intro off hlt
    obtain ⟨i, o, csz, hsh⟩ := m
    by_cases hc : off + csz > bundle.length
    · left
      rw [parsePayloads, if_pos hc]
    · have hlt' : bundle.length < (off + csz) + (rest.map fun m => m.2.2.1).sum := by
        simp only [List.map_cons, List.sum_cons] at hlt
        omega
      rcases ih (off + csz) hlt' with h1 | h1
      · left
        rw [parsePayloads, if_neg hc, h1]
      · rw [h1] at hlt'
        simp at hlt'
        exact absurd hlt' hc

theorem parseMetas_take {bundle : List Nat} {t : Nat} :
    ∀ count off, off + 44 * count ≤ t →
      parseMetas (bundle.take t) count off = parseMetas bundle count off := by
  intro count
  induction count with
  | zero => intro off _; rfl
  | succ n ih =>
    intro off h
    simp only [parseMetas]
    rw [readU32_take (by omega), readU32_take (by omega), readU32_take (by omega),
      slice_take (by omega), ih (off + 44) (by omega)]

theorem flatMap_data_length (chunks : List CompressedChunk) :
    (chunks.flatMap fun c => c.data).length
      = (chunks.map fun c => c.data.length).sum := by
  induction chunks with
  | nil => rfl
  | cons c cs ih => simp [List.flatMap_cons, ih]

theorem metaOf_sum_csize {chunks : List CompressedChunk}
    (h : ∀ c ∈ chunks, c.data.length < 2 ^ 32) :
    ((chunks.map metaOf).map fun m => m.2.2.1).sum
      = (chunks.flatMap fun c => c.data).length := by
  induction chunks with
  | nil => rfl
  | cons c cs ih =>
    have hc := h c (List.mem_cons_self c cs)
    have ih' := ih fun x hx => h x (List.mem_cons_of_mem c hx)
    simp only [List.map_cons, List.sum_cons, metaOf, List.flatMap_cons, List.length_append,
      Nat.mod_eq_of_lt hc, ih']

theorem parse_shr_bundle_truncated {chunks : List CompressedChunk} {t : Nat}
    (hw : wireFits chunks) (h4 : 4 ≤ t) (ht : t < (create_shr_bundle chunks).length) :
    ∃ msg, parse_shr_bundle ((create_shr_bundle chunks).take t)
        = .error (ShrLinkError.InvalidInput msg) := by
  obtain ⟨hn, hall⟩ := hw
  have hhash : ∀ c ∈ chunks, c.hash.length = 32 := fun c hc => (hall c hc).2.2.2
  have hdlen : ∀ c ∈ chunks, c.data.length < 2 ^ 32 := fun c hc => (hall c hc).2.2.1
  have hblen := create_shr_bundle_length hhash
  have hTlen : ((create_shr_bundle chunks).take t).length = t := by
    rw [List.length_take]
    omega
  by_cases h8 : t < 8
  · refine ⟨"Invalid SHR bundle format", ?_⟩
    simp only [parse_shr_bundle]
    rw [if_pos (Or.inl (by rw [hTlen]; exact h8))]
  · have hTmagic : ((create_shr_bundle chunks).take t).take 4 = shrMagic := by
      rw [List.take_take, (by omega : min 4 t = 4), create_shr_bundle_take4]
    have hTcount : readU32 ((create_shr_bundle chunks).take t) 4 = chunks.length := by
      rw [readU32_take (by omega)]
      exact readU32_create_4 hn
    have hg1 : ¬(((create_shr_bundle chunks).take t).length < 8
        ∨ ((create_shr_bundle chunks).take t).take 4 ≠ shrMagic) := by
      push_neg
      exact ⟨by rw [hTlen]; omega, hTmagic⟩
    by_cases hm : t < 8 + chunks.length * 44
    · refine ⟨"Bundle too short for metadata", ?_⟩
      simp only [parse_shr_bundle]
      rw [if_neg hg1,
        if_pos (show ((create_shr_bundle chunks).take t).length
          < 8 + readU32 ((create_shr_bundle chunks).take t) 4 * 44 by
            rw [hTlen, hTcount]; exact hm)]
    · have hD : 0 < (chunks.flatMap fun c => c.data).length := by omega
      have hne : chunks ≠ [] := by
        intro hnil
        rw [hnil] at hD
        simp at hD
      have hmetasT : parseMetas ((create_shr_bundle chunks).take t) chunks.length 8
          = chunks.map metaOf := by
        rw [parseMetas_take chunks.length 8 (by omega), parseMetas_create_bundle hhash]
      have hg2 : ¬(((create_shr_bundle chunks).take t).length
          < 8 + readU32 ((create_shr_bundle chunks).take t) 4 * 44) := by
        rw [hTlen, hTcount]
        omega
      have hsum := metaOf_sum_csize hdlen
      rcases parsePayloads_short ((create_shr_bundle chunks).take t) (chunks.map metaOf)
          (8 + chunks.length * 44) (by rw [hTlen, hsum]; omega) with h1 | h1
      · refine ⟨"Bundle too short for chunk data", ?_⟩
        simp only [parse_shr_bundle]
        rw [if_neg hg1, if_neg hg2, hTcount, hmetasT, h1]
      · exact absurd (List.map_eq_nil_iff.mp h1) hne

theorem enumFrom_length {α : Type} (l : List α) : ∀ i, (enumFrom i l).length = l.length := by
  induction l with
  | nil => intro i; rfl
  | cons a as ih => intro i; simp [enumFrom, ih (i + 1)]

theorem enumFrom_map_snd {α : Type} (l : List α) : ∀ i, (enumFrom i l).map Prod.snd = l := by
  induction l with
  | nil => intro i; rfl
  | cons a as ih => intro i; simp [enumFrom, ih (i + 1)]

theorem xor_pow2_ne (x b : Nat) : x ^^^ 2 ^ b ≠ x := by
  intro h
  have h2 : x ^^^ (x ^^^ 2 ^ b) = x ^^^ x := congrArg (fun y => x ^^^ y) h
  rw [← Nat.xor_assoc, Nat.xor_self, Nat.zero_xor] at h2
  have h3 : 0 < 2 ^ b := Nat.two_pow_pos b
  omega

theorem flipBit_ne {bs : List Nat} {p : Nat} (hp : p / 8 < bs.length) :
    flipBit bs p ≠ bs := by
  intro h
  have h1 : (flipBit bs p)[p / 8]? = bs[p / 8]? := by rw [h]
  rw [flipBit, List.getElem?_set_self hp, List.getElem?_eq_getElem hp] at h1
  injection h1 with h2
  rw [List.getD_eq_getElem bs 0 hp] at h2
  exact xor_pow2_ne (bs[p / 8]) (p % 8) h2

theorem hashBytes_flipBit_ne (raw : List Nat) {p : Nat} (hp : p < 256) :
    hashBytes raw ≠ flipBit (hashBytes raw) p := by
  have hlen : p / 8 < (hashBytes raw).length := by
    rw [hashBytes_length]
    omega
  exact (flipBit_ne hlen).symm

/-- C1: for every byte sequence `S`, every block size `B > 0`, and every
worker count `W ≥ 1` (and any codec satisfying the LZ4 round-trip contract),
compression succeeds, the resulting chunk list carries indices `0, 1, ...` in
ascending order, and decompressing every chunk and concatenating the
plaintexts in that order reproduces `S` exactly. -/
theorem compress_roundtrip (L : Lz4) (S : List Nat) (B : Nat) (a : Int) (W : Nat)
    (hB : 0 < B) (hW : 1 ≤ W) :
    ∃ r, compress_file L ⟨B, a, W⟩ S = .ok r
      ∧ r.chunks.map (fun c => c.index) = List.range r.chunks.length
      ∧ ∃ plains,
          collectResults (r.chunks.map (decompress_chunk L ⟨B, a, W⟩)) = .ok plains
            ∧ plains.flatten = S := by
  refine ⟨_, compress_file_eq L ⟨B, a, W⟩ S, ?_, ?_⟩
  · dsimp only
    rw [List.map_map, (by funext p; rfl :
        ((fun c => c.index) ∘ mkChunk L) = (Prod.fst : Nat × List Nat → Nat)),
      enumFrom_map_fst, List.length_map, enumFrom_length, List.range_eq_range']
  · refine ⟨read_file_chunks ⟨B, a, W⟩ S, ?_, ?_⟩
    · dsimp only
      rw [List.map_map]
      have hcollect := collectResults_map_ok
        (decompress_chunk L ⟨B, a, W⟩ ∘ mkChunk L) Prod.snd
        (enumFrom 0 (read_file_chunks ⟨B, a, W⟩ S))
        (fun p _ => decompress_chunk_mk L ⟨B, a, W⟩ p)
      rw [hcollect, enumFrom_map_snd]
    · exact readChunksFuel_flatten hB S.length S (le_refl _)

/-- Witness for C1 at a concrete input. -/
theorem compress_roundtrip_witness :
    ∃ r, compress_file lz4Id ⟨2, 1, 1⟩ [1, 2, 3] = .ok r
      ∧ r.chunks.map (fun c => c.index) = List.range r.chunks.length
      ∧ ∃ plains,
          collectResults (r.chunks.map (decompress_chunk lz4Id ⟨2, 1, 1⟩)) = .ok plains
            ∧ plains.flatten = [1, 2, 3] :=
  compress_roundtrip lz4Id [1, 2, 3] 2 1 1 (by decide) (by decide)

/-- C2: decoding the bundle produced by encoding any chunk list whose fields
fit the wire format returns `Ok` with the original chunks sorted stably by
index (so out-of-order input is allowed), and every successful decode is
sorted by index ascending. -/
theorem bundle_roundtrip_sorted (chunks : List CompressedChunk) (b : List Nat)
    (cs : List CompressedChunk) (h1 : wireFits chunks) (h2 : parse_shr_bundle b = .ok cs) :
    parse_shr_bundle (create_shr_bundle chunks) = .ok (sortByIndex chunks)
      ∧ List.Pairwise (fun x y => x.index ≤ y.index) cs :=
  ⟨parse_create_shr_bundle h1, parse_shr_bundle_sorted h2⟩

/-- The out-of-order chunk list used to witness C2 and C3 concretely. -/
def witnessChunks : List CompressedChunk :=
  [{ index := 1, data := [9], hash := List.replicate 32 7, original_size := 1 },
   { index := 0, data := [5, 6], hash := List.replicate 32 3, original_size := 2 }]

/-- Witness for C2 at a concrete out-of-index-order chunk list. -/
theorem bundle_roundtrip_sorted_witness :
    parse_shr_bundle (create_shr_bundle witnessChunks) = .ok (sortByIndex witnessChunks)
      ∧ List.Pairwise (fun x y => x.index ≤ y.index) (sortByIndex witnessChunks) :=
  bundle_roundtrip_sorted witnessChunks (create_shr_bundle witnessChunks)
    (sortByIndex witnessChunks) (by decide) (by decide)

/-- C3: truncating the bundle built from any wire-format-fitting chunk list
at any byte offset `t` with `4 ≤ t` strictly inside the buffer makes
`parse_shr_bundle` return an `InvalidInput` error — never a (partial) chunk
list. -/
theorem truncated_bundle_rejected (chunks : List CompressedChunk) (t : Nat)
    (h1 : wireFits chunks) (h2 : 4 ≤ t) (h3 : t < (create_shr_bundle chunks).length) :
    ∃ msg, parse_shr_bundle ((create_shr_bundle chunks).take t)
      = .error (ShrLinkError.InvalidInput msg) :=
  parse_shr_bundle_truncated h1 h2 h3

/-- Witness for C3 at a concrete bundle and truncation point. -/
theorem truncated_bundle_rejected_witness :
    ∃ msg, parse_shr_bundle ((create_shr_bundle witnessChunks).take 97)
      = .error (ShrLinkError.InvalidInput msg) :=
  truncated_bundle_rejected witnessChunks 97 (by decide) (by decide) (by decide)

/-- C4: when a chunk's payload decompresses to `d`, `decompress_chunk`
returns `d` if and only if the recomputed digest equals the stored digest;
on any mismatch it fails with `HashMismatch` carrying both digests as hex
strings; and flipping any single bit of a valid chunk's stored digest makes
it fail with `HashMismatch` rather than return the plaintext. -/
theorem decompress_hash_check (L : Lz4) (self : ParallelCompressor)
    (c : CompressedChunk) (d : List Nat) (idx p : Nat) (raw : List Nat)
    (h1 : decompress_size_prepended L c.data = some d) (h2 : p < 256) :
    ((decompress_chunk L self c = .ok d ↔ hashBytes d = c.hash)
      ∧ (hashBytes d ≠ c.hash →
          decompress_chunk L self c
            = .error (ShrLinkError.HashMismatch (hexEncode c.hash) (hexEncode (hashBytes d)))))
    ∧ decompress_chunk L self
        { index := idx, data := compress_prepend_size L raw,
          hash := flipBit (hashBytes raw) p, original_size := raw.length }
        = .error (ShrLinkError.HashMismatch (hexEncode (flipBit (hashBytes raw) p))
            (hexEncode (hashBytes raw))) := by
  refine ⟨⟨?_, ?_⟩, ?_⟩
  · unfold decompress_chunk
    rw [h1]
    by_cases heq : hashBytes d = c.hash
    · simp [heq]
    · simp [heq]
  · intro hne
    unfold decompress_chunk
    rw [h1]
    simp [hne]
  · unfold decompress_chunk
    dsimp only
    rw [decompress_compress]
    simp [hashBytes_flipBit_ne raw h2]

/-- The concrete chunk used to witness C4. -/
def witnessChunk4 : CompressedChunk :=
  { index := 0, data := [1, 0, 0, 0, 5], hash := hashBytes [5], original_size := 1 }

/-- Witness for C4 at a concrete chunk and bit position. -/
theorem decompress_hash_check_witness :
    ((decompress_chunk lz4Id ⟨2, 1, 1⟩ witnessChunk4 = .ok [5]
        ↔ hashBytes [5] = witnessChunk4.hash)
      ∧ (hashBytes [5] ≠ witnessChunk4.hash →
          decompress_chunk lz4Id ⟨2, 1, 1⟩ witnessChunk4
            = .error (ShrLinkError.HashMismatch (hexEncode witnessChunk4.hash)
                (hexEncode (hashBytes [5])))))
    ∧ decompress_chunk lz4Id ⟨2, 1, 1⟩
        { index := 0, data := compress_prepend_size lz4Id [5],
          hash := flipBit (hashBytes [5]) 13, original_size := [5].length }
        = .error (ShrLinkError.HashMismatch (hexEncode (flipBit (hashBytes [5]) 13))
            (hexEncode (hashBytes [5]))) :=
  decompress_hash_check lz4Id ⟨2, 1, 1⟩ witnessChunk4 [5] 0 13 [5] (by decide) (by decide)

/-- C5: with a fixed block size `B > 0`, compressing with one worker and
with any worker count `W ≥ 1` both succeed and yield chunk lists of equal
length that agree at every position (hence on `index`, `data`, `hash`, and
`original_size`). -/
theorem compress_worker_invariance (L : Lz4) (S : List Nat) (B : Nat) (a : Int) (W : Nat)
    (hB : 0 < B) (hW : 1 ≤ W) :
    ∃ r1 rW, compress_file L ⟨B, a, 1⟩ S = .ok r1
      ∧ compress_file L ⟨B, a, W⟩ S = .ok rW
      ∧ r1.chunks.length = rW.chunks.length
      ∧ ∀ i : Nat, r1.chunks[i]? = rW.chunks[i]? :=
  ⟨_, _, compress_file_eq L ⟨B, a, 1⟩ S, compress_file_eq L ⟨B, a, W⟩ S, rfl, fun _ => rfl⟩

/-- Witness for C5 at a concrete input. -/
theorem compress_worker_invariance_witness :
    ∃ r1 rW, compress_file lz4Id ⟨2, 1, 1⟩ [1, 2, 3] = .ok r1
      ∧ compress_file lz4Id ⟨2, 1, 3⟩ [1, 2, 3] = .ok rW
      ∧ r1.chunks.length = rW.chunks.length
      ∧ ∀ i : Nat, r1.chunks[i]? = rW.chunks[i]? :=
  compress_worker_invariance lz4Id [1, 2, 3] 2 1 3 (by decide) (by decide)

/-- C6: chunk counts — a 20 MiB input with a 4 MiB block size yields exactly
5 chunks; a 0-byte input yields 0 chunks; an input of exactly `B` bytes
yields exactly 1 chunk; and an input whose length is an exact multiple
`k * B` yields exactly `k` chunks, none of them empty. -/
theorem chunk_counts (L : Lz4) (a : Int) (W : Nat) (B k : Nat) (S1 S2 S3 S4 : List Nat)
    (h1 : S1.length = 20971520) (h2 : S2.length = 0) (hB : 0 < B)
    (h3 : S3.length = B) (h4 : S4.length = k * B) :
    (∃ r, compress_file L ⟨4194304, a, W⟩ S1 = .ok r ∧ r.chunks.length = 5)
    ∧ (∃ r, compress_file L ⟨B, a, W⟩ S2 = .ok r ∧ r.chunks.length = 0)
    ∧ (∃ r, compress_file L ⟨B, a, W⟩ S3 = .ok r ∧ r.chunks.length = 1)
    ∧ (∃ r, compress_file L ⟨B, a, W⟩ S4 = .ok r ∧ r.chunks.length = k
        ∧ ∀ c ∈ r.chunks, c.original_size ≠ 0) := by
  refine ⟨⟨_, compress_file_eq L ⟨4194304, a, W⟩ S1, ?_⟩,
          ⟨_, compress_file_eq L ⟨B, a, W⟩ S2, ?_⟩,
          ⟨_, compress_file_eq L ⟨B, a, W⟩ S3, ?_⟩,
          ⟨_, compress_file_eq L ⟨B, a, W⟩ S4, ?_, ?_⟩⟩
  · dsimp only
    rw [List.length_map, enumFrom_length]
    show (readChunksFuel 4194304 S1.length S1).length = 5
    rw [readChunksFuel_length (by norm_num) S1.length S1 (le_refl _), h1]
  · dsimp only
    rw [List.length_map, enumFrom_length]
    rw [List.eq_nil_of_length_eq_zero h2]
    rfl
  · dsimp only
    rw [List.length_map, enumFrom_length]
    show (readChunksFuel B S3.length S3).length = 1
    rw [readChunksFuel_length hB S3.length S3 (le_refl _), h3]
    exact Nat.div_eq_of_lt_le (by omega) (by omega)
  · dsimp only
    rw [List.length_map, enumFrom_length]
    show (readChunksFuel B S4.length S4).length = k
    rw [readChunksFuel_length hB S4.length S4 (le_refl _), h4]
    have e1 : k * B + B - 1 = B - 1 + k * B := by
      rw [Nat.add_comm (k * B) B, Nat.sub_add_comm hB]
    rw [e1, Nat.add_mul_div_right _ _ hB, Nat.div_eq_of_lt (by omega)]
    exact Nat.zero_add k
  · dsimp only
    intro c hc
    rcases List.mem_map.mp hc with ⟨p, hp, hpc⟩
    have hblock := enumFrom_mem_snd _ 0 p hp
    intro h0
    rw [← hpc] at h0
    have hnil : p.2 = [] := List.eq_nil_of_length_eq_zero h0
    rw [hnil] at hblock
    exact readChunksFuel_ne_nil B S4.length S4 hblock

/-- Witness for C6 at concrete inputs. -/
theorem chunk_counts_witness :
    (∃ r, compress_file lz4Id ⟨4194304, 1, 1⟩ (List.replicate 20971520 0) = .ok r
        ∧ r.chunks.length = 5)
    ∧ (∃ r, compress_file lz4Id ⟨1, 1, 1⟩ [] = .ok r ∧ r.chunks.length = 0)
    ∧ (∃ r, compress_file lz4Id ⟨1, 1, 1⟩ [7] = .ok r ∧ r.chunks.length = 1)
    ∧ (∃ r, compress_file lz4Id ⟨1, 1, 1⟩ [] = .ok r ∧ r.chunks.length = 0
        ∧ ∀ c ∈ r.chunks, c.original_size ≠ 0) :=
  chunk_counts lz4Id 1 1 1 0 (List.replicate 20971520 0) [] [7] []
    (List.length_replicate 20971520 0) (by decide) (by decide) (by decide) (by decide)

/-- C7: the chunk built from a raw block carries the 256-bit digest of the
raw (pre-compression) bytes, `original_size` equal to the raw length, and a
payload that embeds the original length (its first 4 bytes are the length as
a little-endian `u32`), so decompression recovers the block from the payload
alone. -/
theorem compress_chunk_fields (L : Lz4) (self : ParallelCompressor) (i : Nat)
    (raw : List Nat) :
    compress_chunk L self i raw
        = .ok { index := i, data := compress_prepend_size L raw,
                hash := hashBytes raw, original_size := raw.length }
      ∧ (compress_prepend_size L raw).take 4 = u32le raw.length
      ∧ decompress_size_prepended L (compress_prepend_size L raw) = some raw := by
  refine ⟨rfl, ?_, decompress_compress L raw⟩
  unfold compress_prepend_size
  exact List.take_left' (u32le_length _)

/-- Counterexample to C8 as stated: with `block_size = 0` the compressor does
not fail with `InvalidInput`; it succeeds, returning an empty chunk list
(the zero-length read buffer makes the first read return 0 bytes and the
loop stop). -/
theorem compress_zero_block_size_succeeds :
    compress_file lz4Id { block_size := 0, acceleration := 1, num_workers := 1 } [1, 2, 3]
      = .ok { chunks := [], total_original_size := 3, total_compressed_size := 0 } := by
  rfl

/-- C8 (amended): compression with `block_size = 0` never errors — no
validation of the block size exists anywhere; the read loop's zero-length
buffer makes the first read return 0 bytes, so compression succeeds with an
empty chunk list (even on non-empty input) and reports the full source
length as `total_original_size`. -/
theorem compress_file_zero_block_size (L : Lz4) (a : Int) (W : Nat) (S : List Nat) :
    compress_file L ⟨0, a, W⟩ S
      = .ok { chunks := [], total_original_size := S.length, total_compressed_size := 0 } := by
  have hchunks : read_file_chunks ⟨0, a, W⟩ S = [] := by
    unfold read_file_chunks
    cases hS : S.length with
    | zero => rfl
    | succ n => simp [readChunksFuel]
  unfold compress_file
  rw [hchunks]
  rfl

/-- Every error `parsePayloads` produces is the payload-truncation
`InvalidInput` error. -/
theorem parsePayloads_error_shape (bundle : List Nat) :
    ∀ (metas : List (Nat × Nat × Nat × List Nat)) (off : Nat) (e : ShrLinkError),
      parsePayloads bundle metas off = .error e →
      e = ShrLinkError.InvalidInput "Bundle too short for chunk data" := by
  intro metas
  induction metas with
  | nil =>
    intro off e h
    simp [parsePayloads] at h
  | cons m rest ih =>
    intro off e h
    obtain ⟨i, o, csz, hsh⟩ := m
    rw [parsePayloads] at h
    by_cases hc : off + csz > bundle.length
    · rw [if_pos hc] at h
      injection h with h2
      exact h2.symm
    · rw [if_neg hc] at h
      cases hrec : parsePayloads bundle rest (off + csz) with
      | error e' =>
        rw [hrec] at h
        injection h with h2
        rw [← h2]
        exact ih (off + csz) e' hrec
      | ok tail =>
        rw [hrec] at h
        simp at h

/-- Counterexample to C9 as stated: on a bad-magic buffer `parse_shr_bundle`
fails with the `InvalidInput` variant itself — there is no `MalformedBundle`
variant distinct from `InvalidInput` in `ShrLinkError`. -/
theorem parse_error_is_invalid_input :
    parse_shr_bundle [0, 0, 0, 0, 0, 0, 0, 0]
      = .error (ShrLinkError.InvalidInput "Invalid SHR bundle format") := by
  rfl

/-- C9 (amended): a bad magic/version, a metadata table shorter than
declared, and a truncated payload section each make `parse_shr_bundle`
return an error, but the error is the `InvalidInput` variant (with a
descriptive message) — `ShrLinkError` has no separate `MalformedBundle`
variant, so "data is corrupt" decode failures are not typed distinctly from
invalid-parameter failures. -/
theorem parse_malformed_invalid_input (b1 b2 b3 : List Nat) (e3 : ShrLinkError)
    (h1 : b1.length < 8 ∨ b1.take 4 ≠ shrMagic)
    (h2a : 8 ≤ b2.length) (h2b : b2.take 4 = shrMagic)
    (h2c : b2.length < 8 + readU32 b2 4 * 44)
    (h3 : parse_shr_bundle b3 = .error e3) :
    parse_shr_bundle b1 = .error (ShrLinkError.InvalidInput "Invalid SHR bundle format")
      ∧ parse_shr_bundle b2 = .error (ShrLinkError.InvalidInput "Bundle too short for metadata")
      ∧ ∃ m, e3 = ShrLinkError.InvalidInput m := by
  refine ⟨?_, ?_, ?_⟩
  · simp only [parse_shr_bundle]
    rw [if_pos h1]
  · simp only [parse_shr_bundle]
    rw [if_neg (not_or.mpr ⟨Nat.not_lt.mpr h2a, not_not_intro h2b⟩), if_pos h2c]
  · simp only [parse_shr_bundle] at h3
    split at h3
    · injection h3 with h
      exact ⟨"Invalid SHR bundle format", h.symm⟩
    · split at h3
      · injection h3 with h
        exact ⟨"Bundle too short for metadata", h.symm⟩
      · split at h3
        · rename_i e' heq
          injection h3 with h
          rw [← h]
          exact ⟨"Bundle too short for chunk data", parsePayloads_error_shape _ _ _ _ heq⟩
        · simp at h3

/-- Witness for C9 (amended) at concrete buffers. -/
theorem parse_malformed_invalid_input_witness :
    parse_shr_bundle [1, 2, 3] = .error (ShrLinkError.InvalidInput "Invalid SHR bundle format")
      ∧ parse_shr_bundle [83, 72, 82, 1, 1, 0, 0, 0]
          = .error (ShrLinkError.InvalidInput "Bundle too short for metadata")
      ∧ ∃ m, ShrLinkError.InvalidInput "Invalid SHR bundle format"
          = ShrLinkError.InvalidInput m :=
  parse_malformed_invalid_input [1, 2, 3] [83, 72, 82, 1, 1, 0, 0, 0] [1, 2, 3]
    (ShrLinkError.InvalidInput "Invalid SHR bundle format")
    (by decide) (by decide) (by decide) (by decide) (by decide)

/-- C10: `with_workers` clamps any requested worker count (including 0) to
at least 1 — the effective count is `max requested 1` — and compression then
succeeds on any input rather than failing on a degenerate pool size. -/
theorem with_workers_clamps (c : ParallelCompressor) (w : Nat) (L : Lz4) (S : List Nat) :
    (with_workers c w).num_workers = max w 1
      ∧ 1 ≤ (with_workers c w).num_workers
      ∧ ∃ r, compress_file L (with_workers c w) S = .ok r := by
  refine ⟨rfl, ?_, ⟨_, compress_file_eq L (with_workers c w) S⟩⟩
  exact Nat.le_max_right w 1

end ShrLink
